import Mathlib

/-!
Verification of the kj exclusive-ownership smart-pointer core
(`kj::Own<T>`, `kj::Disposer`, `canConvert`, erasure to `Own<void>`,
and `attach`), as exercised by `src/c++/src/kj/memory-test.c++`.

The header `kj/memory.h` that implements the primitive is not part of the
source tree here (only its test file is), so the data model and the
operations are modelled from the specification, as noted on each
definition.  Machine addresses are modelled as natural numbers; a
disposer is modelled by the ordered list of complete objects it destroys
when invoked; disposal events are accumulated in an explicit log (the
list of destroyed complete-object addresses, in destruction order),
which plays the role of the destruction-order counter used by the tests.
-/

namespace KJ

/-- Machine address of a (complete or sub-) object, modelled as a natural
number. -/
abbrev Addr := Nat

/-- Modelled from the spec: `kj::Own<T>` (kj/memory.h is absent from the
source tree).  An ownership handle pairs a raw address with a disposer.
`base` is the address of the complete object (none iff the handle is
empty); `off` is the statically-known offset of the `T`-typed view inside
the complete object, so the raw address the handle reports is
`base + off` (an upcast to a secondary base of a multiply-inherited type
has `off > 0`, every other handle has `off = 0`); `dis` models the
disposer: the ordered list of complete objects destroyed when the
disposer is invoked (none iff the handle is empty). -/
structure Own where
  base : Option Addr
  off : Nat
  dis : Option (List Addr)
deriving Repr, DecidableEq

/-- Modelled from the spec: the null/empty handle (address and disposer
both null). -/
def Own.empty : Own := ⟨none, 0, none⟩

/-- Modelled from the spec: `get()` returns the raw address without
affecting ownership; null if the handle is empty. -/
def Own.get (h : Own) : Option Addr := h.base.map (· + h.off)

/-- Modelled from the spec: the allocator collaborator (`kj::heap<T>`),
treated as an opaque call that yields a fresh complete object at address
`a` wrapped with its matching disposer, which destroys exactly that
complete object. -/
def heapOwn (a : Addr) : Own := ⟨some a, 0, some [a]⟩

/-- Modelled from the spec: destroying / clearing a handle.  If the
address is non-null the disposer is invoked (its destruction sequence is
appended to the log); then address and disposer become null.  Disposing
an already-null handle is a no-op.  Returns the emptied handle and the
new log. -/
def Own.dispose (h : Own) (log : List Addr) : Own × List Addr :=
  match h.base, h.dis with
  | some _, some ds => (Own.empty, log ++ ds)
  | _, _ => (Own.empty, log)

/-- Modelled from the spec: move construction.  The (address, disposer)
pair transfers to the new handle, the source becomes null, and no
disposal occurs.  Returns (new handle, consumed source, log). -/
def Own.move (h : Own) (log : List Addr) : Own × Own × List Addr :=
  (h, Own.empty, log)

/-- Modelled from the spec: move assignment between distinct handles.
The old content of the destination is disposed exactly once and the
source's (address, disposer) pair is adopted; the source becomes null.
Returns (new destination, consumed source, log). -/
def Own.moveAssign (dst src : Own) (log : List Addr) : Own × Own × List Addr :=
  (src, Own.empty, (dst.dispose log).2)

/-- Modelled from the spec: upcast of a handle to a base class whose
sub-object sits at offset `o` inside the complete object (offset 0 for
the first or only base).  The disposer is unchanged — still tied to the
original concrete type — and the reported address is adjusted by the
sub-object offset; the source is consumed.  Returns (new handle,
consumed source). -/
def Own.upcast (h : Own) (o : Nat) : Own × Own :=
  ({ h with off := h.off + o }, Own.empty)

/-- Modelled from the spec: type erasure to `Own<void>`.  Performed while
the static type is known, so the stored address is adjusted back to the
complete object's address (offset dropped to 0); the disposer is
unchanged and still destroys the original complete object.  Returns
(erased handle, consumed source). -/
def Own.eraseToVoid (h : Own) : Own × Own :=
  ({ h with off := 0 }, Own.empty)

/-- Modelled from the spec: `attach(primary, secondaries...)`.  Produces
one combined handle presenting the primary's address, whose disposer
destroys the primary's objects first and then each secondary's objects
in the order the secondaries were supplied; all inputs are consumed
(become null) and no disposer is invoked during the call (the log is
untouched).  Returns (combined handle, consumed primary, consumed
secondaries, log). -/
def Own.attach (p : Own) (ss : List Own) (log : List Addr) :
    Own × Own × List Own × List Addr :=
  (⟨p.base, p.off, some (p.dis.getD [] ++ (ss.map (fun s => s.dis.getD [])).flatten)⟩,
   Own.empty, ss.map (fun _ => Own.empty), log)

/-- Modelled from the spec: the destruction-order record used by the
tests (`DestructionOrderRecorder`): each destroyed object records the
value of a shared monotonically increasing counter, i.e. its 1-based
position in the destruction log; an object never destroyed records 0. -/
def recordOf : List Addr → Addr → Nat
  | [], _ => 0
  | b :: bs, a =>
    if b = a then 1
    else
      match recordOf bs a with
      | 0 => 0
      | n + 1 => n + 2

/-- Modelled from the spec: the handle invariants of the data model — the
address is non-null iff the disposer is non-null, and a non-null
handle's disposer destroys the originally allocated complete object
(the complete object's address is among the objects the disposer
destroys). -/
def Own.wf (h : Own) : Prop :=
  (h.base.isSome ↔ h.dis.isSome) ∧ ∀ a, h.base = some a → a ∈ h.dis.getD []

/-- The invariant holds for a freshly allocated handle. -/
theorem wf_heapOwn (a : Addr) : (heapOwn a).wf := by
  constructor
  · simp [heapOwn]
  · intro b hb
    simp [heapOwn] at hb ⊢
    exact hb.symm

/-- The invariant holds for the empty handle. -/
theorem wf_empty : Own.empty.wf := by
  constructor
  · simp [Own.empty]
  · intro b hb
    simp [Own.empty] at hb

/-- C1: releasing the combined handle produced by `attach(P, S1..Sn)`
invokes the disposers in the order P first, then S1, ..., Sn (each
exactly once); with a shared monotonically increasing counter recorded
at each destruction, `attach(1, {2, 3})` then release records values
1, 2, 3 respectively. -/
theorem attach_release_disposal_order (p : Own) (ss : List Own)
    (a : Addr) (log log₀ : List Addr) (hb : p.base = some a) :
    (((p.attach ss log₀).1).dispose log).2
        = log ++ (p.dis.getD [] ++ (ss.map (fun s => s.dis.getD [])).flatten)
    ∧ (let lg := ((((heapOwn 1).attach [heapOwn 2, heapOwn 3] []).1).dispose []).2
       lg = [1, 2, 3]
         ∧ recordOf lg 1 = 1 ∧ recordOf lg 2 = 2 ∧ recordOf lg 3 = 3
         ∧ lg.count 1 = 1 ∧ lg.count 2 = 1 ∧ lg.count 3 = 1) := by
  constructor
  · simp [Own.attach, Own.dispose, hb]
  · decide

/-- Witness for C1 at a concrete primary and secondary. -/
theorem attach_release_disposal_order_witness :
    ((((heapOwn 5).attach [heapOwn 7] []).1).dispose []).2
        = [] ++ ((heapOwn 5).dis.getD []
            ++ ([heapOwn 7].map (fun s => s.dis.getD [])).flatten)
    ∧ (let lg := ((((heapOwn 1).attach [heapOwn 2, heapOwn 3] []).1).dispose []).2
       lg = [1, 2, 3]
         ∧ recordOf lg 1 = 1 ∧ recordOf lg 2 = 2 ∧ recordOf lg 3 = 3
         ∧ lg.count 1 = 1 ∧ lg.count 2 = 1 ∧ lg.count 3 = 1) :=
  attach_release_disposal_order (heapOwn 5) [heapOwn 7] 5 [] [] rfl

/-- C3: the chained composition `attach(1, {2}).attach({3})` and the
single call `attach(1, {2, 3})` produce the same combined handle, so
their release yields the identical destruction order 1, 2, 3: attach
ordering holds transitively across repeated attach calls. -/
theorem attach_chained_eq_single (p s2 s3 : Own) (log : List Addr) :
    (((p.attach [s2] log).1).attach [s3] (p.attach [s2] log).2.2.2).1
        = (p.attach [s2, s3] log).1
    ∧ (let lg :=
         (((((heapOwn 1).attach [heapOwn 2] []).1).attach [heapOwn 3] []).1.dispose []).2
       lg = [1, 2, 3]
         ∧ recordOf lg 1 = 1 ∧ recordOf lg 2 = 2 ∧ recordOf lg 3 = 3) := by
  constructor
  · simp [Own.attach]
  · decide

/-- C5: immediately after `attach`, the consumed primary and every
consumed secondary handle report a null address, the combined handle's
raw address equals the primary's original raw address, and the
destruction log is untouched (no disposer has been invoked: disposal of
the bundled objects is deferred to the release of the combined
handle). -/
theorem attach_consumes_inputs_defers_disposal (p : Own) (ss : List Own)
    (log : List Addr) :
    (p.attach ss log).2.1.get = none
    ∧ (p.attach ss log).2.2.1 = ss.map (fun _ => Own.empty)
    ∧ Own.empty.get = none
    ∧ (p.attach ss log).1.get = p.get
    ∧ (p.attach ss log).2.2.2 = log := by
  refine ⟨rfl, rfl, rfl, ?_, rfl⟩
  simp [Own.attach, Own.get]

/-- C9: disposing a handle whose address is null is a no-op that invokes
no disposer; after any disposal the handle's address is null, and a
repeated disposal of the already-emptied handle adds nothing to the
destruction log, so the disposer runs at most once. -/
theorem dispose_null_noop_and_idempotent (h : Own) (log : List Addr)
    (hn : h.base = none) :
    h.dispose log = (Own.empty, log)
    ∧ (∀ (h' : Own) (log' : List Addr), (h'.dispose log').1.get = none
        ∧ (h'.dispose log').1.dispose (h'.dispose log').2
            = (Own.empty, (h'.dispose log').2)) := by
  constructor
  · obtain ⟨b, o, d⟩ := h
    simp only at hn
    subst hn
    cases d <;> rfl
  · intro h' log'
    obtain ⟨b, o, d⟩ := h'
    cases b <;> cases d <;> simp [Own.dispose, Own.get, Own.empty]

/-- Witness for C9 at the empty handle. -/
theorem dispose_null_noop_and_idempotent_witness :
    Own.empty.dispose [] = (Own.empty, [])
    ∧ (∀ (h' : Own) (log' : List Addr), (h'.dispose log').1.get = none
        ∧ (h'.dispose log').1.dispose (h'.dispose log').2
            = (Own.empty, (h'.dispose log').2)) :=
  dispose_null_noop_and_idempotent Own.empty [] rfl

/-- Modelled from the spec: the heap of `Nested` objects from the
AssignNested scenario (the `Nested` struct lives only in the test file;
kj/memory.h, which drives the member handle's disposal from `~Nested`,
is absent from the source tree).  Each live object is a pair of its
address and the address owned by its member `Own<Nested> nested`
handle (none when that member handle is null). -/
abbrev NHeap := List (Addr × Option Addr)

/-- Modelled from the spec: teardown of the `Nested` object at address
`a`: its destruction is recorded (its destructor sets the `destroyed`
flag), the object leaves the heap, and then its member handle is
disposed, recursively destroying the owned object if the member is
non-null.  `fuel` bounds the recursion depth; the heap size suffices
for any acyclic ownership tree. -/
def destroyNested : Nat → NHeap → List Addr → Addr → NHeap × List Addr
  | 0, heap, log, _ => (heap, log)
  | fuel + 1, heap, log, a =>
    let mem := ((heap.find? (fun e => e.1 == a)).map (fun e => e.2)).getD none
    let heap' := heap.filter (fun e => e.1 != a)
    let log' := log ++ [a]
    match mem with
    | some b => destroyNested fuel heap' log' b
    | none => (heap', log')

/-- Modelled from the spec: `nested = kj::mv(nested->nested)` — a handle
is move-assigned from the member handle of the very object it owns.
The source pair is transferred out first (the member handle of the old
object becomes null), and only then is the old content disposed, so the
teardown of the old outer object finds its member handle already
null. -/
def assignFromMember (heap : NHeap) (h : Option Addr) (log : List Addr) :
    NHeap × Option Addr × List Addr :=
  match h with
  | none => (heap, none, log)
  | some a =>
    let m := ((heap.find? (fun e => e.1 == a)).map (fun e => e.2)).getD none
    let heap' := heap.map (fun e => if e.1 == a then (e.1, (none : Option Addr)) else e)
    let r := destroyNested heap'.length heap' log a
    (r.1, m, r.2)

/-- Modelled from the spec: `nested = nullptr` — clearing a handle over
the `Nested` heap disposes the owned object (recursively) and leaves
the handle null. -/
def clearNested (heap : NHeap) (h : Option Addr) (log : List Addr) :
    NHeap × Option Addr × List Addr :=
  match h with
  | none => (heap, none, log)
  | some a =>
    let r := destroyNested heap.length heap log a
    (r.1, none, r.2)

/-- C4: a move never invokes disposal, and a move-assignment into a
non-empty handle disposes the old content exactly once before adopting
the new one; in particular, in the AssignNested scenario (outer object 1
owning inner object 2, `nested = mv(nested->nested)`), exactly the
outer object is disposed at the reassignment (destroyed1 true,
destroyed2 false) and clearing the remaining handle afterwards disposes
the inner object. -/
theorem move_no_dispose_assign_disposes_old (h dst src : Own)
    (log : List Addr) (a : Addr) (ds : List Addr)
    (hbase : dst.base = some a) (hdis : dst.dis = some ds) :
    (h.move log).2.2 = log
    ∧ (h.move log).1 = h
    ∧ (dst.moveAssign src log).2.2 = log ++ ds
    ∧ (dst.moveAssign src log).1 = src
    ∧ (let s1 := assignFromMember [(1, some 2), (2, none)] (some 1) []
       s1.2.2 = [1] ∧ 1 ∈ s1.2.2 ∧ ¬ 2 ∈ s1.2.2 ∧ s1.2.1 = some 2
         ∧ (let s2 := clearNested s1.1 s1.2.1 s1.2.2
            s2.2.2 = [1, 2] ∧ 1 ∈ s2.2.2 ∧ 2 ∈ s2.2.2)) := by
  refine ⟨rfl, rfl, ?_, rfl, by decide⟩
  simp [Own.moveAssign, Own.dispose, hbase, hdis]

/-- Witness for C4 at concrete handles. -/
theorem move_no_dispose_assign_disposes_old_witness :
    ((heapOwn 4).move []).2.2 = []
    ∧ ((heapOwn 4).move []).1 = heapOwn 4
    ∧ ((heapOwn 9).moveAssign (heapOwn 4) []).2.2 = [] ++ [9]
    ∧ ((heapOwn 9).moveAssign (heapOwn 4) []).1 = heapOwn 4
    ∧ (let s1 := assignFromMember [(1, some 2), (2, none)] (some 1) []
       s1.2.2 = [1] ∧ 1 ∈ s1.2.2 ∧ ¬ 2 ∈ s1.2.2 ∧ s1.2.1 = some 2
         ∧ (let s2 := clearNested s1.1 s1.2.1 s1.2.2
            s2.2.2 = [1, 2] ∧ 1 ∈ s2.2.2 ∧ 2 ∈ s2.2.2)) :=
  move_no_dispose_assign_disposes_old (heapOwn 4) (heapOwn 9) (heapOwn 4)
    [] 9 [9] rfl rfl

/-- Modelled from the spec: a holder of handles together with the
destruction log — the state on which holder-level move-assignment
`handles[i] = mv(handles[j])` acts. -/
structure MState where
  handles : List Own
  log : List Addr
deriving Repr, DecidableEq

/-- Modelled from the spec: holder-level move-assignment.  Assigning a
handle from itself (i = j) is a no-op, not a double-dispose; otherwise
the destination's old content is disposed exactly once, the source's
pair is adopted, and the consumed source handle becomes null. -/
def MState.moveAssignAt (s : MState) (i j : Nat) : MState :=
  if i = j then s
  else
    match s.handles[i]?, s.handles[j]? with
    | some dst, some src =>
      let r := dst.moveAssign src s.log
      ⟨(s.handles.set i r.1).set j Own.empty, r.2.2⟩
    | _, _ => s

/-- C8: move-assigning any handle (empty or not) into itself is a no-op:
the handle's address and disposer are unchanged and no disposer is
invoked, so self-assignment never disposes (and never
double-disposes). -/
theorem self_assign_noop (s : MState) (i : Nat) :
    s.moveAssignAt i i = s
    ∧ (s.moveAssignAt i i).handles = s.handles
    ∧ (s.moveAssignAt i i).log = s.log := by
  refine ⟨?_, ?_, ?_⟩ <;> simp [MState.moveAssignAt]

/-- Modelled from the spec: conversion of `Own<T>` to `Own<const T>`
(`Own<const int> ci = mv(i)` in the OwnConst test).  A const conversion
consumes the source; the address and the disposer carry over
unchanged. -/
def Own.toConst (h : Own) : Own × Own := (h, Own.empty)

/-- Modelled from the spec: dereferencing a handle (`*i` in the tests)
reads the value stored at the handle's raw address in the value
environment `mem`. -/
def Own.deref (h : Own) (mem : Addr → Nat) : Option Nat := h.get.map mem

/-- C10: a handle holding an object with value `v` may be moved into a
const handle; the conversion consumes the source, the resulting const
handle dereferences to the same value at the same address, and its
eventual release invokes the disposer of the original object exactly
once. -/
theorem own_const_conversion (h : Own) (a : Addr) (ds : List Addr)
    (mem : Addr → Nat) (log : List Addr)
    (hg : h.get = some a) (hd : h.dis = some ds) :
    (h.toConst).2.get = none
    ∧ (h.toConst).1.get = some a
    ∧ (h.toConst).1.deref mem = some (mem a)
    ∧ ((h.toConst).1.dispose log).2 = log ++ ds := by
  obtain ⟨b, o, d⟩ := h
  cases b with
  | none => simp [Own.get] at hg
  | some c =>
    refine ⟨rfl, hg, ?_, ?_⟩
    · simp [Own.toConst, Own.deref, hg]
    · simp only at hd
      subst hd
      simp [Own.toConst, Own.dispose]

/-- Witness for C10 at a concrete handle holding the value 2, mirroring
`Own<int> i = heap<int>(2)`. -/
theorem own_const_conversion_witness :
    ((heapOwn 6).toConst).2.get = none
    ∧ ((heapOwn 6).toConst).1.get = some 6
    ∧ ((heapOwn 6).toConst).1.deref (fun _ => 2) = some ((fun _ => 2) 6)
    ∧ (((heapOwn 6).toConst).1.dispose []).2 = [] ++ [6] :=
  own_const_conversion (heapOwn 6) 6 [6] (fun _ => 2) [] rfl rfl

/-- C2: erasing a handle to `Own<void>` preserves the raw address when
the handle's static view has no secondary multiple-inheritance offset
(offset 0, covering both the trivially-destructible and the polymorphic
single-base test types), and the erased handle's disposer is unchanged;
when the handle points to a second (offset `k > 0`) base sub-object of a
multiply-inherited complete object at address `a`, the sub-object
address `a + k` differs from the complete object's address, the erased
handle's address equals the complete object's address `a` (not the
sub-object's), and releasing the erased handle invokes the original
concrete type's full teardown exactly once. -/
theorem erase_to_void_complete_object (h : Own) (a k : Nat)
    (log : List Addr) (hoff : h.off = 0) (hk : 0 < k) :
    (h.eraseToVoid).1.get = h.get
    ∧ (h.eraseToVoid).1.dis = h.dis
    ∧ (((heapOwn a).upcast k).1).get = some (a + k)
    ∧ (((heapOwn a).upcast k).1).get ≠ (heapOwn a).get
    ∧ ((((heapOwn a).upcast k).1).eraseToVoid).1.get = (heapOwn a).get
    ∧ (((((heapOwn a).upcast k).1).eraseToVoid).1.dispose log).2 = log ++ [a]
    ∧ (((((heapOwn a).upcast k).1).eraseToVoid).1.dispose log).2.count a
        = log.count a + 1 := by
  refine ⟨?_, rfl, ?_, ?_, ?_, ?_, ?_⟩
  · simp [Own.eraseToVoid, Own.get, hoff]
  · simp [heapOwn, Own.upcast, Own.get]
  · intro hcontra
    simp [heapOwn, Own.upcast, Own.get] at hcontra
    exact absurd hcontra (Nat.pos_iff_ne_zero.mp hk)
  · simp [heapOwn, Own.upcast, Own.eraseToVoid, Own.get]
  · simp [heapOwn, Own.upcast, Own.eraseToVoid, Own.dispose]
  · simp [heapOwn, Own.upcast, Own.eraseToVoid, Own.dispose]

/-- Witness for C2 at a single-base handle and a complete object at
address 10 whose second base sits at offset 8. -/
theorem erase_to_void_complete_object_witness :
    ((heapOwn 9).eraseToVoid).1.get = (heapOwn 9).get
    ∧ ((heapOwn 9).eraseToVoid).1.dis = (heapOwn 9).dis
    ∧ (((heapOwn 10).upcast 8).1).get = some (10 + 8)
    ∧ (((heapOwn 10).upcast 8).1).get ≠ (heapOwn 10).get
    ∧ ((((heapOwn 10).upcast 8).1).eraseToVoid).1.get = (heapOwn 10).get
    ∧ (((((heapOwn 10).upcast 8).1).eraseToVoid).1.dispose []).2 = [] ++ [10]
    ∧ (((((heapOwn 10).upcast 8).1).eraseToVoid).1.dispose []).2.count 10
        = [].count 10 + 1 :=
  erase_to_void_complete_object (heapOwn 9) 10 8 [] rfl (by decide)

/-- C7: the exclusive-ownership invariant.  For a well-formed live
handle: a non-null address comes with a non-null disposer that destroys
the originally allocated complete object; move, move-assignment, upcast,
erasure and attach all leave their consumed sources null; upcast,
erasure and attach preserve the invariant; and the multiset of live
addresses over the handles involved never gains a duplicate — after a
move the live addresses of (new handle, consumed source) are exactly
those of the input, and after an attach the live addresses of (combined
handle, consumed primary, consumed secondaries) are exactly those of the
primary. -/
theorem exclusive_ownership_invariant (h src : Own) (ss : List Own)
    (o : Nat) (log : List Addr) (a : Addr)
    (hwf : h.wf) (ha : h.base = some a) :
    (∃ ds, h.dis = some ds ∧ a ∈ ds)
    ∧ (h.move log).2.1 = Own.empty
    ∧ [(h.move log).1, (h.move log).2.1].filterMap Own.get
        = [h].filterMap Own.get
    ∧ (h.moveAssign src log).2.1 = Own.empty
    ∧ (h.upcast o).2 = Own.empty
    ∧ (h.upcast o).1.wf
    ∧ (h.eraseToVoid).2 = Own.empty
    ∧ (h.eraseToVoid).1.wf
    ∧ (h.attach ss log).2.1 = Own.empty
    ∧ (h.attach ss log).2.2.1 = ss.map (fun _ => Own.empty)
    ∧ (h.attach ss log).1.wf
    ∧ ((h.attach ss log).1 :: (h.attach ss log).2.1 :: (h.attach ss log).2.2.1).filterMap Own.get
        = [h].filterMap Own.get
    ∧ (h.dispose log).1 = Own.empty := by
  obtain ⟨hiff, hmem⟩ := hwf
  have hds : ∃ ds, h.dis = some ds := by
    have : h.dis.isSome := hiff.mp (by simp [ha])
    exact Option.isSome_iff_exists.mp this
  obtain ⟨ds, hds⟩ := hds
  refine ⟨⟨ds, hds, ?_⟩, rfl, ?_, rfl, rfl, ?_, rfl, ?_, rfl, rfl, ?_, ?_, ?_⟩
  · have := hmem a ha
    simpa [hds] using this
  · cases hg : h.get <;>
      simp [Own.move, List.filterMap_cons, hg, Own.empty, Own.get]
  · exact ⟨by simpa [Own.upcast] using hiff, by simpa [Own.upcast] using hmem⟩
  · exact ⟨by simpa [Own.eraseToVoid] using hiff, by simpa [Own.eraseToVoid] using hmem⟩
  · constructor
    · simp [Own.attach, ha]
    · intro b hb
      simp [Own.attach] at hb
      rw [ha] at hb
      cases hb
      have := hmem a ha
      simp [Own.attach, hds] at this ⊢
      exact Or.inl this
  · simp [Own.attach, Own.get, Own.empty, List.filterMap_cons, ha]
  · obtain ⟨b, o', d⟩ := h
    simp only at ha hds
    subst ha hds
    rfl

/-- Witness for C7 at a concrete well-formed handle. -/
theorem exclusive_ownership_invariant_witness :
    (∃ ds, (heapOwn 3).dis = some ds ∧ 3 ∈ ds)
    ∧ ((heapOwn 3).move []).2.1 = Own.empty
    ∧ [((heapOwn 3).move []).1, ((heapOwn 3).move []).2.1].filterMap Own.get
        = [heapOwn 3].filterMap Own.get
    ∧ ((heapOwn 3).moveAssign (heapOwn 8) []).2.1 = Own.empty
    ∧ ((heapOwn 3).upcast 4).2 = Own.empty
    ∧ ((heapOwn 3).upcast 4).1.wf
    ∧ ((heapOwn 3).eraseToVoid).2 = Own.empty
    ∧ ((heapOwn 3).eraseToVoid).1.wf
    ∧ ((heapOwn 3).attach [heapOwn 8] []).2.1 = Own.empty
    ∧ ((heapOwn 3).attach [heapOwn 8] []).2.2.1
        = [heapOwn 8].map (fun _ => Own.empty)
    ∧ ((heapOwn 3).attach [heapOwn 8] []).1.wf
    ∧ (((heapOwn 3).attach [heapOwn 8] []).1 :: ((heapOwn 3).attach [heapOwn 8] []).2.1
          :: ((heapOwn 3).attach [heapOwn 8] []).2.2.1).filterMap Own.get
        = [heapOwn 3].filterMap Own.get
    ∧ ((heapOwn 3).dispose []).1 = Own.empty :=
  exclusive_ownership_invariant (heapOwn 3) (heapOwn 8) [heapOwn 8] 4 [] 3
    (wf_heapOwn 3) rfl

/-- Modelled from the spec: the declared inheritance table over which the
compile-time conversion capability is decided (`canConvert` lives in
kj/memory.h, absent from the source tree).  Types are numbered in
declaration order; an entry `(d, b)` records that type `d` declares type
`b` as an accessible base class. -/
abbrev Inh := List (Nat × Nat)

/-- Modelled from the spec: well-formedness of an inheritance table — a
base class must be a complete type, declared before any class deriving
from it, so every declared edge points to a strictly smaller type
index. -/
def InhWF (e : Inh) : Prop := ∀ p ∈ e, p.2 < p.1

/-- Modelled from the spec: `t` is a reachable, accessible (possibly
indirect) base class of `s` in the table `e`. -/
inductive AccessibleBase (e : Inh) : Nat → Nat → Prop
  | direct {s t : Nat} : (s, t) ∈ e → AccessibleBase e s t
  | step {s m t : Nat} : (s, m) ∈ e → AccessibleBase e m t → AccessibleBase e s t

/-- Modelled from the spec: bounded search along declared edges for an
accessible base `t` of `s`.  Every declared edge strictly decreases the
type index, so fuel `s` suffices for a well-formed table. -/
def reachBase (e : Inh) : Nat → Nat → Nat → Bool
  | 0, _, _ => false
  | fuel + 1, s, t =>
    e.any (fun p => p.1 == s && decide (p.2 < s) && (p.2 == t || reachBase e fuel p.2 t))

/-- Modelled from the spec: the compile-time conversion capability —
`Own<s>` may be converted to `Own<t>` iff `t` is `s` itself or a
reachable accessible base class of `s`. -/
def canConvert (e : Inh) (s t : Nat) : Bool :=
  s == t || reachBase e s s t

/-- Soundness of the bounded search: a found base is a reachable
accessible base. -/
theorem reachBase_sound (e : Inh) :
    ∀ fuel s t, reachBase e fuel s t = true → AccessibleBase e s t := by
  intro fuel
  induction fuel with
  | zero => intro s t hr; simp [reachBase] at hr
  | succ f ih =>
    intro s t hr
    simp only [reachBase, List.any_eq_true] at hr
    obtain ⟨p, hp, hcond⟩ := hr
    simp only [Bool.and_eq_true, Bool.or_eq_true, beq_iff_eq,
      decide_eq_true_eq] at hcond
    obtain ⟨⟨h1, _⟩, h3⟩ := hcond
    subst h1
    cases h3 with
    | inl ht =>
      refine AccessibleBase.direct ?_
      rw [← ht]
      simpa using hp
    | inr hrec =>
      refine AccessibleBase.step ?_ (ih _ _ hrec)
      simpa using hp

/-- Completeness of the bounded search over a well-formed table: any
reachable accessible base is found once the fuel reaches the source's
type index. -/
theorem reachBase_complete (e : Inh) (hwf : InhWF e) {s t : Nat}
    (hab : AccessibleBase e s t) :
    ∀ fuel, s ≤ fuel → reachBase e fuel s t = true := by
  induction hab with
  | @direct s' t' hmem =>
    intro fuel hfuel
    have hlt : t' < s' := hwf _ hmem
    cases fuel with
    | zero =>
      have hz : s' = 0 := Nat.le_zero.mp hfuel
      exact absurd (hz ▸ hlt) (Nat.not_lt_zero t')
    | succ f =>
      simp only [reachBase, List.any_eq_true]
      refine ⟨(s', t'), hmem, ?_⟩
      simp [hlt]
  | @step s' m t' hmem _ ih =>
    intro fuel hfuel
    have hlt : m < s' := hwf _ hmem
    cases fuel with
    | zero =>
      have hz : s' = 0 := Nat.le_zero.mp hfuel
      exact absurd (hz ▸ hlt) (Nat.not_lt_zero m)
    | succ f =>
      simp only [reachBase, List.any_eq_true]
      refine ⟨(s', m), hmem, ?_⟩
      have hm : reachBase e f m t' = true :=
        ih f (Nat.lt_succ_iff.mp (Nat.lt_of_lt_of_le hlt hfuel))
      simp [hlt, hm]

/-- Over a well-formed table, a reachable accessible base always has a
strictly smaller type index than the derived type. -/
theorem accessibleBase_lt (e : Inh) (hwf : InhWF e) {s t : Nat}
    (hab : AccessibleBase e s t) : t < s := by
  induction hab with
  | direct hmem => exact hwf _ hmem
  | step hmem _ ih => exact Nat.lt_trans ih (hwf _ hmem)

/-- C6: over any well-formed inheritance table, the compile-time
conversion capability between `Own<u>` and `Own<v>` holds exactly when
`v` is an accessible base class of `u` or `u` itself; in particular, for
any accessible-inheritance pair with `t` a base of `s`,
`canConvert<Own<s>, Own<t>>()` is true and the reverse downcast
`canConvert<Own<t>, Own<s>>()` is false. -/
theorem canConvert_exactly_accessible_base (e : Inh) (u v s t : Nat)
    (hwf : InhWF e) (hsub : AccessibleBase e s t) :
    (canConvert e u v = true ↔ (v = u ∨ AccessibleBase e u v))
    ∧ canConvert e s t = true
    ∧ canConvert e t s = false := by
  have hiff : ∀ x y, canConvert e x y = true ↔ (y = x ∨ AccessibleBase e x y) := by
    intro x y
    constructor
    · intro hc
      simp only [canConvert, Bool.or_eq_true, beq_iff_eq] at hc
      cases hc with
      | inl hxy => exact Or.inl hxy.symm
      | inr hr => exact Or.inr (reachBase_sound e x x y hr)
    · intro hc
      cases hc with
      | inl hxy => simp [canConvert, hxy]
      | inr hab =>
        have := reachBase_complete e hwf hab x (Nat.le_refl x)
        simp [canConvert, this]
  refine ⟨hiff u v, (hiff s t).mpr (Or.inr hsub), ?_⟩
  have hts : t < s := accessibleBase_lt e hwf hsub
  cases hcc : canConvert e t s with
  | false => rfl
  | true =>
    rcases (hiff t s).mp hcc with heq | hab
    · exact absurd (heq ▸ hts) (Nat.lt_irrefl s)
    · exact absurd hts (Nat.lt_asymm (accessibleBase_lt e hwf hab))

/-- Witness for C6 on the two-type hierarchy of the CanConvert test: type
1 (`Sub`) declares type 0 (`Super`) as its accessible base. -/
theorem canConvert_exactly_accessible_base_witness :
    (canConvert [(1, 0)] 1 0 = true ↔ (0 = 1 ∨ AccessibleBase [(1, 0)] 1 0))
    ∧ canConvert [(1, 0)] 1 0 = true
    ∧ canConvert [(1, 0)] 0 1 = false :=
  canConvert_exactly_accessible_base [(1, 0)] 1 0 1 0
    (fun p hp => by rw [List.mem_singleton.mp hp]; decide)
    (AccessibleBase.direct (by decide))

end KJ
